import Mathlib

/-!
Verification of the podfic submission toolkit (src/podfickle.py) against its
natural-language specification.  The Python source is shallowly embedded:

* Python exceptions become `PyErr` values (class name plus message); fallible
  code returns `Except PyErr` or a trace paired with `Option PyErr`.
* `retry_on_error`'s `while attempts > 0` loop with a unit decrement per
  caught failure is fuel recursion on `attempts.toNat`; the stateful action
  closure is a function from its invocation count.
* The Selenium form interactions of `AO3.new_podfic` are recorded as a list
  of `FormAction` events, in the order the Python code performs them.
* `urllib.parse.urlsplit` / `urlparse` / `urlunsplit` (CPython 3.8) are
  embedded over `List Char`, including the params/query/fragment splitting
  and the `Invalid IPv6 URL` error.
-/

namespace Podfickle

/-- A Python exception value: exception class name and message. -/
structure PyErr where
  kind : String
  msg : String
deriving DecidableEq, Repr

/-! ### retry_on_error (src/podfickle.py lines 79-96)

```python
def retry_on_error(error_type, action, message=..., attempts=5, interval=1):
    final_error = BaseException()
    while attempts > 0:
        try:
            return action()
        except error_type as error:
            final_error = error
            _log.warning(message)
            attempts -= 1
            sleep(interval)
    raise final_error
```

The action is a stateful closure; we model it as a function from the number
of prior invocations.  `except error_type` is the predicate `catches`
(`isinstance` against `error_type`).  The result records the returned value
or the raised error, together with how many times the action was invoked. -/

/-- A Python callable that may raise, indexed by how many times it has been
invoked before (modelling the closure's internal state). -/
abbrev Action (T : Type) := Nat → Except PyErr T

/-- The `while attempts > 0` loop body of `retry_on_error`: `fuel` is the
remaining attempts budget, `calls` the number of invocations so far, and
`finalError` the Python local `final_error`. -/
def retryLoop {T : Type} (catches : PyErr → Bool) (action : Action T) :
    Nat → Nat → PyErr → Except PyErr T × Nat
  | 0, calls, finalError => (Except.error finalError, calls)
  | fuel + 1, calls, _finalError =>
    match action calls with
    | Except.ok v => (Except.ok v, calls + 1)
    | Except.error e =>
      if catches e then retryLoop catches action fuel (calls + 1) e
      else (Except.error e, calls + 1)

/-- The freshly constructed `BaseException()` used to initialise
`final_error`. -/
def baseExceptionErr : PyErr := { kind := "BaseException", msg := "" }

/-- `retry_on_error`.  A `while attempts > 0` loop whose only decrement is
`attempts -= 1` runs exactly `attempts.toNat` caught-failure iterations, so
`Int.toNat` is the faithful fuel for any (possibly non-positive) `attempts`. -/
def retry_on_error {T : Type} (catches : PyErr → Bool) (action : Action T)
    (attempts : Int) : Except PyErr T × Nat :=
  retryLoop catches action attempts.toNat 0 baseExceptionErr

/-! ### The form-interaction trace of `AO3.new_podfic` -/

/-- One Selenium interaction performed by `AO3` while filling the new-work
form.  `fillFieldTags id tags` stands for `_fill_field_tags` (send each tag
plus ENTER to the element with the given id). -/
inductive FormAction where
  | get (path : String)
  | selectValueText (id text : String)
  | clickCheckbox (value : String)
  | fillFieldTags (id : String) (tags : List String)
  | sendKeys (id text : String)
  | click (id : String)
deriving DecidableEq, Repr

/-- The sentinel AO3 warning value tested by `_fill_warnings`. -/
def sentinelWarning : String := "Creator Chose Not To Use Archive Warnings"

/-- The checkbox value clicked for the sentinel warning. -/
def optOutWarning : String := "Choose Not To Use Archive Warnings"

/-- `AO3._fill_warnings` (lines 259-264), embedded literally.  The `else`
in the source is attached to the `for` loop, not to the `if`, so it runs
once after the loop finishes: it clicks the checkbox for the loop variable,
which then holds the *last* element of the list, and raises
`UnboundLocalError` when the list was empty (the loop variable was never
bound).

```python
def _fill_warnings(self, warnings):
    for warning in warnings:
        if warning == "Creator Chose Not To Use Archive Warnings":
            self._click_checkbox_value("Choose Not To Use Archive Warnings")
    else:
        self._click_checkbox_value(warning)
```
-/
def fillWarnings (warnings : List String) : List FormAction × Option PyErr :=
  let loopClicks := warnings.filterMap fun w =>
    if w = sentinelWarning then some (FormAction.clickCheckbox optOutWarning) else none
  match warnings.getLast? with
  | some w => (loopClicks ++ [FormAction.clickCheckbox w], none)
  | none =>
    (loopClicks,
     some { kind := "UnboundLocalError",
            msg := "local variable referenced before assignment" })

/-- `SeriesPart` dataclass. -/
structure SeriesPart where
  series : String
  part : Nat
deriving DecidableEq, Repr

/-- `Work` dataclass: all the information about a work from AO3. -/
structure Work where
  id : String
  url : String
  title : String
  author : String
  summary : String
  rating : List String
  warning : List String
  category : List String
  fandom : List String
  relationship : List String
  character : List String
  freeform : List String
  series_part : Option SeriesPart
  author_url : String

/-- `_ADDITIONAL_PODFIC_TAGS`. -/
def additionalPodficTags : List String := ["Podfic", "Podfic & Podficced Works"]

/-- `AO3.new_podfic` (lines 266-311) as the trace of form interactions it
performs, paired with the exception that aborts it, if any.  The template
renderings `podfic.notes()` and `podfic.content()` are opaque inputs.  The
`[work_rating] = work.rating` unpacking raises `ValueError` unless the
rating list has exactly one element; an `UnboundLocalError` from
`_fill_warnings` propagates and aborts the remaining steps. -/
def new_podfic (work : Work) (notes content : String) :
    List FormAction × Option PyErr :=
  let t0 := [FormAction.get "/works/new"]
  match work.rating with
  | [] =>
    (t0, some { kind := "ValueError",
                msg := "not enough values to unpack (expected 1, got 0)" })
  | [workRating] =>
    let t1 := t0 ++ [FormAction.selectValueText "work_rating_string" workRating]
    let w := fillWarnings work.warning
    match w.2 with
    | some e => (t1 ++ w.1, some e)
    | none =>
      let t3 := t1 ++ w.1 ++
        [FormAction.fillFieldTags "work_fandom_autocomplete" work.fandom] ++
        work.category.map FormAction.clickCheckbox ++
        [FormAction.fillFieldTags "work_relationship_autocomplete" work.relationship,
         FormAction.fillFieldTags "work_character_autocomplete" work.character,
         FormAction.fillFieldTags "work_freeform_autocomplete" work.freeform,
         FormAction.fillFieldTags "work_freeform_autocomplete" additionalPodficTags,
         FormAction.sendKeys "work_title" ("[podfic] " ++ work.title),
         FormAction.sendKeys "work_summary" work.summary,
         FormAction.click "end-notes-options-show",
         FormAction.sendKeys "work_endnotes" notes,
         FormAction.click "parent-options-show",
         FormAction.sendKeys "work_parent_attributes_url" work.url]
      let t4 := t3 ++
        (match work.series_part with
         | none => []
         | some sp =>
           FormAction.click "series-options-show" ::
           (if sp.part = 1 then
              [FormAction.sendKeys "work_series_attributes_title"
                ("[podfic] " ++ sp.series)]
            else
              [FormAction.selectValueText "work_series_attributes_id"
                ("[podfic] " ++ sp.series)]))
      (t4 ++ [FormAction.selectValueText "work_language_id" "English",
              FormAction.sendKeys "content" content], none)
  | _ :: _ :: _ =>
    (t0, some { kind := "ValueError",
                msg := "too many values to unpack (expected 1)" })

/-! ### Series-part scraping in `AO3.load_work_data` (lines 329-342) -/

/-- The maximal leading run of ASCII digits, and the rest. -/
def takeDigits : List Char → List Char × List Char
  | [] => ([], [])
  | c :: cs =>
    if c.isDigit then
      let p := takeDigits cs
      (c :: p.1, p.2)
    else ([], c :: cs)

/-- Python `int` of a digit string. -/
def digitsToNat (l : List Char) : Nat :=
  l.foldl (fun n c => n * 10 + (c.toNat - 48)) 0

/-- `_RX_PART_N_OF_THE.match(text)` for the pattern `Part (\d+) of the`:
anchored at the start, it requires the literal `Part `, then a maximal
nonempty digit run (the group), then the literal ` of the`; it yields the
group converted by `int`.  (Backtracking cannot shorten the greedy `\d+`
here, since the character after the group must be a space.) -/
def rxPartNOfTheMatch (text : String) : Option Nat :=
  let l := text.data
  if l.take 5 = "Part ".data then
    let p := takeDigits (l.drop 5)
    if p.1 ≠ [] ∧ p.2.take 7 = " of the".data then some (digitsToNat p.1)
    else none
  else none

/-- The series-scraping fragment of `AO3.load_work_data`.  Its input is the
series markup of the rendered page: `none` when no `span.series
span.position` element exists (the `NoSuchElementException` path), and
otherwise the text of the contained `a` element (the series name link)
paired with the full text of the position label.  A label that does not
match `_RX_PART_N_OF_THE` fails the `assert match is not None` check. -/
def load_series_part (pageSeries : Option (String × String)) :
    Except PyErr (Option SeriesPart) :=
  match pageSeries with
  | none => Except.ok none
  | some (anchorText, labelText) =>
    match rxPartNOfTheMatch labelText with
    | none => Except.error { kind := "AssertionError", msg := "No series part number" }
    | some n => Except.ok (some { series := anchorText, part := n })

/-! ### `urllib.parse` (CPython 3.8) over `List Char`

`Urls.clean_urls` delegates to `_clean_url_path`, which is
`urlunparse(urlparse(url)[0:3] + ("", "", ""))`.  We embed the relevant
parts of CPython 3.8's `urllib/parse.py` faithfully, modelling `str` as
`List Char`: `urlsplit` (scheme extraction, `//`-netloc extraction with the
`Invalid IPv6 URL` check, fragment split, query split), the
`;`-parameter separation of `urlparse`, and `urlunsplit`. -/

/-- Python strings, as character lists. -/
abbrev Str := List Char

/-- Characters allowed in a URL scheme (`scheme_chars`: ASCII letters,
digits, `+`, `-`, `.`). -/
def schemeChar (c : Char) : Bool :=
  (97 ≤ c.toNat && c.toNat ≤ 122) || (65 ≤ c.toNat && c.toNat ≤ 90) ||
  (48 ≤ c.toNat && c.toNat ≤ 57) || c == '+' || c == '-' || c == '.'

/-- Python `str.lower` on a single character, for the ASCII range the
scheme characters live in. -/
def lowerChar (c : Char) : Char :=
  if 65 ≤ c.toNat && c.toNat ≤ 90 then Char.ofNat (c.toNat + 32) else c

/-- Split at the first occurrence of `c`: `some (before, after)`, or `none`
when `c` does not occur (`s.find(c)` plus slicing, or `s.split(c, 1)`). -/
def splitFirst (c : Char) : Str → Option (Str × Str)
  | [] => none
  | x :: xs =>
    if x = c then some ([], xs)
    else (splitFirst c xs).map fun p => (x :: p.1, p.2)

/-- Split at the last occurrence of `c` (`s.rfind(c)` plus slicing). -/
def splitLast (c : Char) : Str → Option (Str × Str)
  | [] => none
  | x :: xs =>
    match splitLast c xs with
    | some p => some (x :: p.1, p.2)
    | none => if x = c then some ([], xs) else none

/-- The delimiters ending the network-location part (`_splitnetloc` looks
for `/`, `?` and `#`). -/
def netlocDelim (c : Char) : Bool := c == '/' || c == '?' || c == '#'

/-- `_splitnetloc(url, 2)`, applied to the text after the leading `//`:
the network location is everything up to the first delimiter. -/
def splitNetloc : Str → Str × Str
  | [] => ([], [])
  | c :: cs =>
    if netlocDelim c then ([], c :: cs)
    else
      let p := splitNetloc cs
      (c :: p.1, p.2)

/-- The result of `urlsplit`. -/
structure SplitResult where
  scheme : Str
  netloc : Str
  path : Str
  query : Str
  fragment : Str
deriving DecidableEq, Repr

/-- The scheme-extraction step of `urlsplit`: when the text before the
first `:` is nonempty and consists of scheme characters it is removed and
lowercased, otherwise the url is left untouched. -/
def splitScheme (url : Str) : Str × Str :=
  match splitFirst ':' url with
  | some p =>
    if p.1 = [] then ([], url)
    else if p.1.all schemeChar then (p.1.map lowerChar, p.2)
    else ([], url)
  | none => ([], url)

/-- The netloc step of `urlsplit`: when the url starts with `//`, split off
the network location and check the IPv6 bracket condition. -/
def splitNetlocStep (url : Str) : Except PyErr (Str × Str) :=
  if url.take 2 = ['/', '/'] then
    let p := splitNetloc (url.drop 2)
    if ('[' ∈ p.1 ∧ ']' ∉ p.1) ∨ (']' ∈ p.1 ∧ '[' ∉ p.1) then
      Except.error { kind := "ValueError", msg := "Invalid IPv6 URL" }
    else Except.ok p
  else Except.ok ([], url)

/-- The fragment step of `urlsplit`: split at the first `#`, if any. -/
def splitFragment (url : Str) : Str × Str :=
  match splitFirst '#' url with
  | some p => p
  | none => (url, [])

/-- The query step of `urlsplit`: split at the first `?`, if any. -/
def splitQuery (url : Str) : Str × Str :=
  match splitFirst '?' url with
  | some p => p
  | none => (url, [])

/-- `urllib.parse.urlsplit` with default arguments. -/
def urlsplit (url : Str) : Except PyErr SplitResult :=
  let s := splitScheme url
  match splitNetlocStep s.2 with
  | Except.error e => Except.error e
  | Except.ok nl =>
    let f := splitFragment nl.2
    let q := splitQuery f.1
    Except.ok { scheme := s.1, netloc := nl.1, path := q.1,
                query := q.2, fragment := f.2 }

/-- `uses_params`: the schemes (including the empty scheme) for which
`urlparse` separates `;`-parameters from the path. -/
def usesParams : List Str :=
  [[], "ftp".data, "hdl".data, "prospero".data, "http".data, "imap".data,
   "https".data, "shttp".data, "rtsp".data, "rtspu".data, "sip".data,
   "sips".data, "mms".data, "sftp".data, "tel".data]

/-- `_splitparams`: cut at the first `;` after the last `/`, or at the
first `;` at all when the path has no `/`; no such `;` leaves the path
unchanged with empty params. -/
def splitparams (url : Str) : Str × Str :=
  match splitLast '/' url with
  | some p =>
    match splitFirst ';' p.2 with
    | some q => (p.1 ++ '/' :: q.1, q.2)
    | none => (url, [])
  | none =>
    match splitFirst ';' url with
    | some q => (q.1, q.2)
    | none => (url, [])

/-- The result of `urlparse`. -/
structure ParseResult where
  scheme : Str
  netloc : Str
  path : Str
  params : Str
  query : Str
  fragment : Str
deriving DecidableEq, Repr

/-- `urllib.parse.urlparse` with default arguments. -/
def urlparse (url : Str) : Except PyErr ParseResult :=
  match urlsplit url with
  | Except.error e => Except.error e
  | Except.ok s =>
    if s.scheme ∈ usesParams ∧ ';' ∈ s.path then
      let p := splitparams s.path
      Except.ok { scheme := s.scheme, netloc := s.netloc, path := p.1,
                  params := p.2, query := s.query, fragment := s.fragment }
    else
      Except.ok { scheme := s.scheme, netloc := s.netloc, path := s.path,
                  params := [], query := s.query, fragment := s.fragment }

/-- `urllib.parse.urlunsplit`. -/
def urlunsplit (scheme netloc path query fragment : Str) : Str :=
  let url := path
  let url :=
    if netloc ≠ [] ∨ (url ≠ [] ∧ url.take 2 = ['/', '/']) then
      let url := if url ≠ [] ∧ url.take 1 ≠ ['/'] then '/' :: url else url
      '/' :: '/' :: (netloc ++ url)
    else url
  let url := if scheme ≠ [] then scheme ++ ':' :: url else url
  let url := if query ≠ [] then url ++ '?' :: query else url
  if fragment ≠ [] then url ++ '#' :: fragment else url

/-- `_clean_url_path` over character lists:
`urlunparse(urlparse(url)[0:3] + ("", "", ""))`; with empty params this is
`urlunsplit` of the scheme, netloc and parameter-stripped path with empty
query and fragment. -/
def cleanUrlPathList (url : Str) : Except PyErr Str :=
  match urlparse url with
  | Except.error e => Except.error e
  | Except.ok r => Except.ok (urlunsplit r.scheme r.netloc r.path [] [])

/-- `_clean_url_path` on Python strings. -/
def clean_url_path (url : String) : Except PyErr String :=
  match cleanUrlPathList url.data with
  | Except.error e => Except.error e
  | Except.ok l => Except.ok (String.mk l)

/-- The `Urls` config model: the four hosted-audio links. -/
structure Urls where
  anchor_fm : String
  google_drive : String
  mediafire : String
  spotify : String
deriving DecidableEq, Repr

/-- `Urls.clean_urls`: clean each stored link.  The keyword arguments of
the `Urls(...)` construction are evaluated in source order (spotify,
anchor_fm, google_drive, mediafire), and the first `ValueError` raised by
`_clean_url_path` propagates. -/
def Urls.clean_urls (u : Urls) : Except PyErr Urls :=
  match clean_url_path u.spotify with
  | Except.error e => Except.error e
  | Except.ok spotify =>
    match clean_url_path u.anchor_fm with
    | Except.error e => Except.error e
    | Except.ok anchor_fm =>
      match clean_url_path u.google_drive with
      | Except.error e => Except.error e
      | Except.ok google_drive =>
        match clean_url_path u.mediafire with
        | Except.error e => Except.error e
        | Except.ok mediafire =>
          Except.ok { anchor_fm := anchor_fm, google_drive := google_drive,
                      mediafire := mediafire, spotify := spotify }

/-- `c` is the cleaned form of `url`: parsing `c` yields the scheme, netloc
and path components of `url` unchanged, with empty params, query and
fragment. -/
def cleanedFrom (url c : String) : Prop :=
  ∃ r, urlparse url.data = Except.ok r ∧
    urlparse c.data = Except.ok { scheme := r.scheme, netloc := r.netloc,
                                  path := r.path, params := [], query := [],
                                  fragment := [] }

/-- The invariants of a `(scheme, netloc, path)` triple as produced by
`urlparse`: the scheme is lowercased scheme characters, the netloc contains
no `/?#` and has balanced-or-absent square brackets, the path contains no
`?` or `#`, a nonempty netloc forces an empty or `/`-initial path, and with
no scheme, no netloc and no leading `//` the path cannot begin with a
scheme-shaped `:`-prefix.  These are exactly what makes `urlunsplit` of the
triple (with empty query and fragment) re-parse to the same components. -/
structure CleanOk (scheme netloc path : Str) : Prop where
  scheme_all : scheme.all schemeChar = true
  scheme_lower : scheme.map lowerChar = scheme
  netloc_nodelim : ∀ x ∈ netloc, netlocDelim x = false
  netloc_brackets :
    ¬ (('[' ∈ netloc ∧ ']' ∉ netloc) ∨ (']' ∈ netloc ∧ '[' ∉ netloc))
  path_noq : '?' ∉ path
  path_nof : '#' ∉ path
  path_slash : netloc ≠ [] → path = [] ∨ ∃ t, path = '/' :: t
  path_colon : scheme = [] → netloc = [] → (∀ t, path ≠ '/' :: '/' :: t) →
    ∀ pre rest, splitFirst ':' path = some (pre, rest) →
      pre = [] ∨ pre.all schemeChar = false

/-! ### Concrete values used by the witnesses -/

/-- An error-kind predicate used to exercise the retry claims. -/
def kindEMatcher : PyErr → Bool := fun e => e.kind == "StaleElement"

/-- A stubborn action: raises a matching error on every invocation. -/
def alwaysFailingAction : Action Nat :=
  fun _ => Except.error { kind := "StaleElement", msg := "boom" }

/-- An action that raises a matching error twice, then succeeds with 42. -/
def transientAction : Action Nat := fun k =>
  if k < 2 then Except.error { kind := "StaleElement", msg := "boom" }
  else Except.ok 42

/-- An action that always raises an error the kind predicate rejects. -/
def unrelatedFailingAction : Action Nat :=
  fun _ => Except.error { kind := "Fatal", msg := "other" }

/-- A scraped work with no rating tag, used to exercise claim C8. -/
def exWorkNoRating : Work :=
  { id := "100", url := "https://archiveofourown.org/works/100",
    title := "My Story", author := "someone", summary := "a summary",
    rating := [], warning := ["No Archive Warnings Apply"],
    category := ["Gen"], fandom := ["A Fandom"], relationship := [],
    character := [], freeform := [], series_part := none,
    author_url := "https://archiveofourown.org/users/someone" }

/-- A scraped work exercising the title transformation of claim C7. -/
def exWorkTitle : Work :=
  { id := "101", url := "https://archiveofourown.org/works/101",
    title := "My Story", author := "someone", summary := "a summary",
    rating := ["General Audiences"], warning := ["No Archive Warnings Apply"],
    category := ["Gen"], fandom := ["A Fandom"], relationship := [],
    character := [], freeform := [], series_part := none,
    author_url := "https://archiveofourown.org/users/someone" }

/-- A scraped work that is part 1 of the series `Arc`. -/
def exWorkSeriesFirst : Work :=
  { exWorkTitle with id := "102", series_part := some { series := "Arc", part := 1 } }

/-- A scraped work that is part 2 of the series `Arc`. -/
def exWorkSeriesLater : Work :=
  { exWorkTitle with id := "103", series_part := some { series := "Arc", part := 2 } }

/-- A `Urls` value with tracking query parameters, a fragment and
`;`-parameters, used to exercise claim C3. -/
def exUrls : Urls :=
  { anchor_fm := "https://anchor.fm/someone/episodes/ep-1?x=1#t=2",
    google_drive := "https://drive.google.com/file/d/abc/view?usp=sharing",
    mediafire := "https://www.mediafire.com/file/k/ep.mp3;par?d=1",
    spotify := "https://open.spotify.com/episode/abc?si=xyz" }

/-- The cleaned form of `exUrls`. -/
def exUrlsClean : Urls :=
  { anchor_fm := "https://anchor.fm/someone/episodes/ep-1",
    google_drive := "https://drive.google.com/file/d/abc/view",
    mediafire := "https://www.mediafire.com/file/k/ep.mp3",
    spotify := "https://open.spotify.com/episode/abc" }

/-! ### Helper lemmas about `fillWarnings` -/

theorem fillWarnings_snd_eq_none {warnings : List String} (h : warnings ≠ []) :
    (fillWarnings warnings).2 = none := by
  unfold fillWarnings
  cases hl : warnings.getLast? with
  | none => exact absurd (List.getLast?_eq_none_iff.mp hl) h
  | some w => simp

theorem fillWarnings_fst_clicks {warnings : List String} {a : FormAction}
    (h : a ∈ (fillWarnings warnings).1) : ∃ v, a = FormAction.clickCheckbox v := by
  unfold fillWarnings at h
  cases hl : warnings.getLast? <;> simp only [hl] at h
  · obtain ⟨w, _, hw⟩ := List.mem_filterMap.mp h
    split at hw
    · exact ⟨optOutWarning, (Option.some_injective _ hw).symm⟩
    · exact absurd hw (by simp)
  · rcases List.mem_append.mp h with h' | h'
    · obtain ⟨w, _, hw⟩ := List.mem_filterMap.mp h'
      split at hw
      · exact ⟨optOutWarning, (Option.some_injective _ hw).symm⟩
      · exact absurd hw (by simp)
    · exact ⟨_, (List.mem_singleton.mp h')⟩

theorem sendKeys_not_mem_fillWarnings (iv tv : String) (warnings : List String) :
    FormAction.sendKeys iv tv ∉ (fillWarnings warnings).1 := by
  intro h
  obtain ⟨v, hv⟩ := fillWarnings_fst_clicks h
  exact FormAction.noConfusion hv

theorem selectValueText_not_mem_fillWarnings (iv tv : String) (warnings : List String) :
    FormAction.selectValueText iv tv ∉ (fillWarnings warnings).1 := by
  intro h
  obtain ⟨v, hv⟩ := fillWarnings_fst_clicks h
  exact FormAction.noConfusion hv

/-! ### Character-level lemmas about scheme characters and lowercasing -/

theorem char_toNat_add32 {n : Nat} (h1 : 65 ≤ n) (h2 : n ≤ 90) :
    (Char.ofNat (n + 32)).toNat = n + 32 := by
  interval_cases n <;> decide

theorem schemeChar_cases {c : Char} (h : schemeChar c = true) :
    (97 ≤ c.toNat ∧ c.toNat ≤ 122) ∨ (65 ≤ c.toNat ∧ c.toNat ≤ 90) ∨
    (48 ≤ c.toNat ∧ c.toNat ≤ 57) ∨ c.toNat = 43 ∨ c.toNat = 45 ∨ c.toNat = 46 := by
  by_cases h1 : 97 ≤ c.toNat ∧ c.toNat ≤ 122
  · exact Or.inl h1
  by_cases h2 : 65 ≤ c.toNat ∧ c.toNat ≤ 90
  · exact Or.inr (Or.inl h2)
  by_cases h3 : 48 ≤ c.toNat ∧ c.toNat ≤ 57
  · exact Or.inr (Or.inr (Or.inl h3))
  by_cases h4 : c = '+'
  · subst h4; exact Or.inr (Or.inr (Or.inr (Or.inl (by decide))))
  by_cases h5 : c = '-'
  · subst h5; exact Or.inr (Or.inr (Or.inr (Or.inr (Or.inl (by decide)))))
  by_cases h6 : c = '.'
  · subst h6; exact Or.inr (Or.inr (Or.inr (Or.inr (Or.inr (by decide)))))
  exfalso
  simp only [schemeChar, Bool.or_eq_true, Bool.and_eq_true, decide_eq_true_eq,
    beq_iff_eq] at h
  tauto

theorem schemeChar_of_lower {c : Char} (h1 : 97 ≤ c.toNat) (h2 : c.toNat ≤ 122) :
    schemeChar c = true := by
  simp only [schemeChar, Bool.or_eq_true, Bool.and_eq_true, decide_eq_true_eq]
  tauto

theorem lowerChar_of_upper {c : Char} (h1 : 65 ≤ c.toNat) (h2 : c.toNat ≤ 90) :
    (lowerChar c).toNat = c.toNat + 32 := by
  unfold lowerChar
  rw [if_pos (by simp only [Bool.and_eq_true, decide_eq_true_eq]; exact ⟨h1, h2⟩)]
  exact char_toNat_add32 h1 h2

theorem lowerChar_of_not_upper {c : Char} (h : ¬(65 ≤ c.toNat ∧ c.toNat ≤ 90)) :
    lowerChar c = c := by
  unfold lowerChar
  rw [if_neg (by simp only [Bool.and_eq_true, decide_eq_true_eq]; exact h)]

theorem lowerChar_props {c : Char} (h : schemeChar c = true) :
    schemeChar (lowerChar c) = true ∧ lowerChar (lowerChar c) = lowerChar c ∧
    (lowerChar c).toNat ≠ 58 := by
  by_cases hc : 65 ≤ c.toNat ∧ c.toNat ≤ 90
  · have ht := lowerChar_of_upper hc.1 hc.2
    refine ⟨schemeChar_of_lower (by omega) (by omega),
      lowerChar_of_not_upper (by omega), by omega⟩
  · have he := lowerChar_of_not_upper hc
    rw [he]
    have := schemeChar_cases h
    exact ⟨h, lowerChar_of_not_upper hc, by omega⟩

theorem colon_not_mem_of_all_scheme {pre : Str} (h : pre.all schemeChar = true) :
    ':' ∉ pre := by
  intro hm
  exact absurd (List.all_eq_true.mp h ':' hm) (by decide)

theorem scheme_all_lower {pre : Str} (h : pre.all schemeChar = true) :
    (pre.map lowerChar).all schemeChar = true ∧
    (pre.map lowerChar).map lowerChar = pre.map lowerChar ∧
    ':' ∉ pre.map lowerChar := by
  have h' := List.all_eq_true.mp h
  refine ⟨?_, ?_, ?_⟩
  · rw [List.all_eq_true]
    intro x hx
    obtain ⟨y, hy, rfl⟩ := List.mem_map.mp hx
    exact (lowerChar_props (h' y hy)).1
  · rw [List.map_map]
    apply List.map_congr_left
    intro x hx
    exact (lowerChar_props (h' x hx)).2.1
  · intro hm
    obtain ⟨y, hy, he⟩ := List.mem_map.mp hm
    exact (lowerChar_props (h' y hy)).2.2 (by rw [he]; decide)

/-! ### Lemmas about `splitFirst`, `splitLast` and `splitNetloc` -/

theorem splitFirst_cons_self (c : Char) (xs : Str) :
    splitFirst c (c :: xs) = some ([], xs) := by
  simp [splitFirst]

theorem splitFirst_cons_ne {x c : Char} (hx : ¬ x = c) (xs : Str) :
    splitFirst c (x :: xs) = (splitFirst c xs).map fun p => (x :: p.1, p.2) := by
  simp [splitFirst, hx]

theorem splitFirst_eq_none_iff {c : Char} {l : Str} :
    splitFirst c l = none ↔ c ∉ l := by
  induction l with
  | nil => simp [splitFirst]
  | cons x xs ih =>
    by_cases hx : x = c
    · subst hx
      simp [splitFirst_cons_self]
    · rw [splitFirst_cons_ne hx]
      cases hs : splitFirst c xs with
      | none =>
        have hm : c ∉ xs := ih.mp hs
        simp only [Option.map_none', true_iff, List.mem_cons]
        intro hor
        rcases hor with rfl | hc
        · exact hx rfl
        · exact hm hc
      | some p =>
        have hm : c ∈ xs := by
          by_contra hc
          rw [ih.mpr hc] at hs
          exact Option.noConfusion hs
        simp [List.mem_cons, hm]

theorem splitFirst_eq_none {c : Char} {l : Str} (h : c ∉ l) : splitFirst c l = none :=
  splitFirst_eq_none_iff.mpr h

theorem splitFirst_eq_some {c : Char} {l a b : Str}
    (h : splitFirst c l = some (a, b)) : l = a ++ c :: b ∧ c ∉ a := by
  induction l generalizing a b with
  | nil => exact Option.noConfusion h
  | cons x xs ih =>
    by_cases hx : x = c
    · subst hx
      rw [splitFirst_cons_self] at h
      obtain ⟨rfl, rfl⟩ := Prod.mk.injEq .. ▸ Option.some.inj h
      simp
    · rw [splitFirst_cons_ne hx] at h
      cases hs : splitFirst c xs with
      | none => rw [hs] at h; exact Option.noConfusion h
      | some p =>
        rw [hs, Option.map_some'] at h
        obtain ⟨h1, h2⟩ := Prod.mk.injEq .. ▸ Option.some.inj h
        obtain ⟨hl, hna⟩ := ih (a := p.1) (b := p.2) (by rw [hs])
        subst h2
        rw [← h1]
        constructor
        · rw [List.cons_append, ← hl]
        · simp only [List.mem_cons]
          rintro (rfl | hm)
          · exact hx rfl
          · exact hna hm

theorem splitFirst_append_left {c : Char} {a : Str} (b : Str) (h : c ∉ a) :
    splitFirst c (a ++ c :: b) = some (a, b) := by
  induction a with
  | nil => simp [splitFirst_cons_self]
  | cons x xs ih =>
    have hx : ¬ x = c := fun he => h (he ▸ List.mem_cons_self x xs)
    have hxs : c ∉ xs := fun hm => h (List.mem_cons_of_mem x hm)
    rw [List.cons_append, splitFirst_cons_ne hx, ih hxs, Option.map_some']

theorem splitFirst_extend {c : Char} {p pre rest : Str} (t : Str)
    (h : splitFirst c p = some (pre, rest)) :
    splitFirst c (p ++ t) = some (pre, rest ++ t) := by
  obtain ⟨hp, hn⟩ := splitFirst_eq_some h
  rw [hp, List.append_assoc, List.cons_append]
  exact splitFirst_append_left (rest ++ t) hn

theorem splitLast_cons (c x : Char) (xs : Str) :
    splitLast c (x :: xs) =
      match splitLast c xs with
      | some p => some (x :: p.1, p.2)
      | none => if x = c then some ([], xs) else none := rfl

theorem splitLast_eq_none_iff {c : Char} {l : Str} :
    splitLast c l = none ↔ c ∉ l := by
  induction l with
  | nil => simp [splitLast]
  | cons x xs ih =>
    rw [splitLast_cons]
    cases hs : splitLast c xs with
    | some p =>
      have hm : c ∈ xs := by
        by_contra hc
        rw [ih.mpr hc] at hs
        exact Option.noConfusion hs
      simp [List.mem_cons, hm]
    | none =>
      have hm : c ∉ xs := ih.mp hs
      by_cases hx : x = c
      · subst hx
        simp [List.mem_cons]
      · simp only [if_neg hx, true_iff, List.mem_cons]
        intro hor
        rcases hor with rfl | hc
        · exact hx rfl
        · exact hm hc

theorem splitLast_eq_some {c : Char} {l a b : Str}
    (h : splitLast c l = some (a, b)) : l = a ++ c :: b ∧ c ∉ b := by
  induction l generalizing a b with
  | nil => exact Option.noConfusion h
  | cons x xs ih =>
    rw [splitLast_cons] at h
    cases hs : splitLast c xs with
    | some p =>
      rw [hs] at h
      obtain ⟨h1, h2⟩ := Prod.mk.injEq .. ▸ Option.some.inj h
      obtain ⟨hl, hnb⟩ := ih (a := p.1) (b := p.2) (by rw [hs])
      subst h2
      rw [← h1]
      exact ⟨by rw [List.cons_append, ← hl], hnb⟩
    | none =>
      rw [hs] at h
      by_cases hx : x = c
      · rw [if_pos hx] at h
        obtain ⟨h1, h2⟩ := Prod.mk.injEq .. ▸ Option.some.inj h
        subst hx
        rw [← h1, ← h2]
        exact ⟨rfl, splitLast_eq_none_iff.mp hs⟩
      · rw [if_neg hx] at h
        exact Option.noConfusion h

theorem splitLast_append {c : Char} {b : Str} (a : Str) (h : c ∉ b) :
    splitLast c (a ++ c :: b) = some (a, b) := by
  induction a with
  | nil =>
    rw [List.nil_append, splitLast_cons, splitLast_eq_none_iff.mpr h, if_pos rfl]
  | cons x xs ih =>
    rw [List.cons_append, splitLast_cons, ih]

theorem splitNetloc_eq (l : Str) :
    l = (splitNetloc l).1 ++ (splitNetloc l).2 ∧
    (∀ x ∈ (splitNetloc l).1, netlocDelim x = false) ∧
    ((splitNetloc l).2 = [] ∨
      ∃ y t, (splitNetloc l).2 = y :: t ∧ netlocDelim y = true) := by
  induction l with
  | nil => simp [splitNetloc]
  | cons x xs ih =>
    cases hx : netlocDelim x with
    | true =>
      simp only [splitNetloc, hx, if_true]
      exact ⟨rfl, by simp, Or.inr ⟨x, xs, rfl, hx⟩⟩
    | false =>
      have hred : splitNetloc (x :: xs) = (x :: (splitNetloc xs).1, (splitNetloc xs).2) := by
        simp [splitNetloc, hx]
      rw [hred]
      refine ⟨?_, ?_, ih.2.2⟩
      · rw [List.cons_append, ← ih.1]
      · intro y hy
        rcases List.mem_cons.mp hy with rfl | hm
        · exact hx
        · exact ih.2.1 y hm

theorem netlocDelim_cases {c : Char} (h : netlocDelim c = true) :
    c = '/' ∨ c = '?' ∨ c = '#' := by
  simp only [netlocDelim, Bool.or_eq_true, beq_iff_eq] at h
  tauto

theorem all_eq_false_of_mem {l : Str} {x : Char} (hx : x ∈ l)
    (hpx : schemeChar x = false) : l.all schemeChar = false := by
  cases hall : l.all schemeChar with
  | false => rfl
  | true => exact absurd (List.all_eq_true.mp hall x hx) (by simp [hpx])

theorem take_two_iff {l : Str} : l.take 2 = ['/', '/'] ↔ ∃ t, l = '/' :: '/' :: t := by
  cases l with
  | nil => simp
  | cons a l1 =>
    cases l1 with
    | nil => simp [List.take]
    | cons b t =>
      show [a, b] = ['/', '/'] ↔ _
      constructor
      · intro h
        injection h with e1 h
        injection h with e2 _
        subst e1; subst e2
        exact ⟨t, rfl⟩
      · rintro ⟨u, he⟩
        injection he with e1 h
        injection h with e2 e3
        subst e1; subst e2
        rfl

theorem splitNetloc_append {a b : Str} (ha : ∀ x ∈ a, netlocDelim x = false)
    (hb : b = [] ∨ ∃ y t, b = y :: t ∧ netlocDelim y = true) :
    splitNetloc (a ++ b) = (a, b) := by
  induction a with
  | nil =>
    rcases hb with rfl | ⟨y, t, rfl, hy⟩
    · rfl
    · simp [splitNetloc, hy]
  | cons x xs ih =>
    have hx := ha x (List.mem_cons_self x xs)
    have hxs := fun y hy => ha y (List.mem_cons_of_mem x hy)
    simp [splitNetloc, hx, ih hxs]

/-! ### Characterization of the steps of `urlsplit` -/

theorem splitScheme_eq_nil {url : Str} (h : (splitScheme url).1 = []) :
    (splitScheme url).2 = url ∧
    ∀ pre rest, splitFirst ':' url = some (pre, rest) →
      pre = [] ∨ pre.all schemeChar = false := by
  cases hf : splitFirst ':' url with
  | none =>
    refine ⟨by simp [splitScheme, hf], ?_⟩
    intro pre rest he
    exact Option.noConfusion he
  | some p =>
    obtain ⟨a, b⟩ := p
    by_cases h1 : a = []
    · refine ⟨by simp [splitScheme, hf, h1], ?_⟩
      intro pre rest he
      obtain ⟨hp1, hp2⟩ := Prod.mk.injEq .. ▸ Option.some.inj he
      exact Or.inl (hp1 ▸ h1)
    · cases h2 : a.all schemeChar with
      | true =>
        exfalso
        have he : (splitScheme url).1 = a.map lowerChar := by
          simp [splitScheme, hf, h1, h2]
        rw [he] at h
        exact h1 (List.map_eq_nil_iff.mp h)
      | false =>
        refine ⟨by simp [splitScheme, hf, h1, h2], ?_⟩
        intro pre rest he
        obtain ⟨hp1, hp2⟩ := Prod.mk.injEq .. ▸ Option.some.inj he
        exact Or.inr (hp1 ▸ h2)

theorem splitScheme_spec_some {url : Str} (h : (splitScheme url).1 ≠ []) :
    ∃ pre rest, splitFirst ':' url = some (pre, rest) ∧ pre ≠ [] ∧
      pre.all schemeChar = true ∧
      splitScheme url = (pre.map lowerChar, rest) := by
  cases hf : splitFirst ':' url with
  | none => exact absurd (by simp [splitScheme, hf]) h
  | some p =>
    by_cases h1 : p.1 = []
    · exact absurd (by simp [splitScheme, hf, h1]) h
    · cases h2 : p.1.all schemeChar with
      | false => exact absurd (by simp [splitScheme, hf, h1, h2]) h
      | true =>
        exact ⟨p.1, p.2, rfl, h1, h2, by simp [splitScheme, hf, h1, h2]⟩

theorem splitNetlocStep_ok {url : Str} {nl : Str × Str}
    (h : splitNetlocStep url = Except.ok nl) :
    (¬ url.take 2 = ['/', '/'] ∧ nl = ([], url)) ∨
    (url.take 2 = ['/', '/'] ∧ nl = splitNetloc (url.drop 2) ∧
      ¬ (('[' ∈ nl.1 ∧ ']' ∉ nl.1) ∨ (']' ∈ nl.1 ∧ '[' ∉ nl.1))) := by
  unfold splitNetlocStep at h
  by_cases ht : url.take 2 = ['/', '/']
  · rw [if_pos ht] at h
    by_cases hb : ('[' ∈ (splitNetloc (url.drop 2)).1 ∧ ']' ∉ (splitNetloc (url.drop 2)).1) ∨
        (']' ∈ (splitNetloc (url.drop 2)).1 ∧ '[' ∉ (splitNetloc (url.drop 2)).1)
    · rw [if_pos hb] at h
      exact Except.noConfusion h
    · rw [if_neg hb] at h
      obtain rfl := Except.ok.inj h
      exact Or.inr ⟨ht, rfl, hb⟩
  · rw [if_neg ht] at h
    obtain rfl := Except.ok.inj h
    exact Or.inl ⟨ht, rfl⟩

theorem splitFragment_eq (url : Str) :
    '#' ∉ (splitFragment url).1 ∧ ∃ t, url = (splitFragment url).1 ++ t := by
  cases hf : splitFirst '#' url with
  | none =>
    have he : splitFragment url = (url, []) := by simp [splitFragment, hf]
    rw [he]
    exact ⟨splitFirst_eq_none_iff.mp hf, [], (List.append_nil url).symm⟩
  | some p =>
    have he : splitFragment url = p := by simp [splitFragment, hf]
    rw [he]
    obtain ⟨hl, hn⟩ := splitFirst_eq_some (l := url) (a := p.1) (b := p.2) (by rw [hf])
    exact ⟨hn, '#' :: p.2, hl⟩

theorem splitQuery_eq (url : Str) :
    '?' ∉ (splitQuery url).1 ∧ ∃ t, url = (splitQuery url).1 ++ t := by
  cases hf : splitFirst '?' url with
  | none =>
    have he : splitQuery url = (url, []) := by simp [splitQuery, hf]
    rw [he]
    exact ⟨splitFirst_eq_none_iff.mp hf, [], (List.append_nil url).symm⟩
  | some p =>
    have he : splitQuery url = p := by simp [splitQuery, hf]
    rw [he]
    obtain ⟨hl, hn⟩ := splitFirst_eq_some (l := url) (a := p.1) (b := p.2) (by rw [hf])
    exact ⟨hn, '?' :: p.2, hl⟩

theorem path_of_url2 (url2 : Str) :
    '#' ∉ (splitQuery (splitFragment url2).1).1 ∧
    '?' ∉ (splitQuery (splitFragment url2).1).1 ∧
    ∃ t, url2 = (splitQuery (splitFragment url2).1).1 ++ t := by
  obtain ⟨hf, t1, ht1⟩ := splitFragment_eq url2
  obtain ⟨hq, t2, ht2⟩ := splitQuery_eq (splitFragment url2).1
  refine ⟨?_, hq, t2 ++ t1, ?_⟩
  · intro hm
    exact hf (ht2 ▸ List.mem_append.mpr (Or.inl hm))
  · calc url2 = (splitFragment url2).1 ++ t1 := ht1
      _ = ((splitQuery (splitFragment url2).1).1 ++ t2) ++ t1 := by
          conv_lhs => rw [ht2]
      _ = (splitQuery (splitFragment url2).1).1 ++ (t2 ++ t1) :=
          List.append_assoc _ _ _

/-! ### Computation lemmas for re-parsing a rebuilt URL -/

theorem splitFragment_no {url : Str} (h : '#' ∉ url) : splitFragment url = (url, []) := by
  simp [splitFragment, splitFirst_eq_none h]

theorem splitQuery_no {url : Str} (h : '?' ∉ url) : splitQuery url = (url, []) := by
  simp [splitQuery, splitFirst_eq_none h]

theorem splitScheme_of_scheme {scheme : Str} (base : Str)
    (hall : scheme.all schemeChar = true) (hlow : scheme.map lowerChar = scheme)
    (hne : scheme ≠ []) :
    splitScheme (scheme ++ ':' :: base) = (scheme, base) := by
  have hf := splitFirst_append_left base (colon_not_mem_of_all_scheme hall)
  simp [splitScheme, hf, hne, hall, hlow]

theorem splitScheme_of_base_slash (netloc path : Str) :
    splitScheme ('/' :: '/' :: (netloc ++ path)) =
      ([], '/' :: '/' :: (netloc ++ path)) := by
  cases hf : splitFirst ':' ('/' :: '/' :: (netloc ++ path)) with
  | none => simp [splitScheme, hf]
  | some p =>
    obtain ⟨hl, hn⟩ :=
      splitFirst_eq_some (a := p.1) (b := p.2) (l := '/' :: '/' :: (netloc ++ path))
        (by rw [hf])
    have hp1 : p.1 ≠ [] := by
      intro he
      rw [he] at hl
      injection hl with e1 _
      exact absurd e1 (by decide)
    have hmem : '/' ∈ p.1 := by
      cases hp : p.1 with
      | nil => exact absurd hp hp1
      | cons q qs =>
        rw [hp] at hl
        injection hl with e1 _
        rw [← e1]
        exact List.mem_cons_self _ _
    have hall : p.1.all schemeChar = false :=
      all_eq_false_of_mem hmem (by decide)
    simp [splitScheme, hf, hp1, hall]

theorem splitScheme_of_colonfree {path : Str}
    (hc : ∀ pre rest, splitFirst ':' path = some (pre, rest) →
      pre = [] ∨ pre.all schemeChar = false) :
    splitScheme path = ([], path) := by
  cases hf : splitFirst ':' path with
  | none => simp [splitScheme, hf]
  | some p =>
    rcases hc p.1 p.2 (by rw [hf]) with h1 | h1
    · simp [splitScheme, hf, h1]
    · by_cases h0 : p.1 = []
      · simp [splitScheme, hf, h0]
      · simp [splitScheme, hf, h0, h1]

theorem parse_base_branch {netloc path : Str}
    (hn : ∀ x ∈ netloc, netlocDelim x = false)
    (hbr : ¬ (('[' ∈ netloc ∧ ']' ∉ netloc) ∨ (']' ∈ netloc ∧ '[' ∉ netloc)))
    (hslash : path = [] ∨ ∃ t, path = '/' :: t) :
    splitNetlocStep ('/' :: '/' :: (netloc ++ path)) = Except.ok (netloc, path) := by
  have hsn : splitNetloc (netloc ++ path) = (netloc, path) := by
    apply splitNetloc_append hn
    rcases hslash with rfl | ⟨t, rfl⟩
    · exact Or.inl rfl
    · exact Or.inr ⟨'/', t, rfl, rfl⟩
  have ht : ('/' :: '/' :: (netloc ++ path)).take 2 = ['/', '/'] := rfl
  have hd : ('/' :: '/' :: (netloc ++ path)).drop 2 = netloc ++ path := rfl
  unfold splitNetlocStep
  rw [if_pos ht, hd, hsn, if_neg hbr]

theorem parse_base_nobranch {path : Str} (hns : ∀ t, path ≠ '/' :: '/' :: t) :
    splitNetlocStep path = Except.ok ([], path) := by
  unfold splitNetlocStep
  rw [if_neg fun hc => ?_]
  obtain ⟨t, ht⟩ := take_two_iff.mp hc
  exact hns t ht

theorem urlsplit_steps (url : Str) {sc : Str × Str} {nl : Str × Str}
    (h1 : splitScheme url = sc) (h2 : splitNetlocStep sc.2 = Except.ok nl)
    (h3 : '#' ∉ nl.2) (h4 : '?' ∉ nl.2) :
    urlsplit url = Except.ok { scheme := sc.1, netloc := nl.1, path := nl.2,
                               query := [], fragment := [] } := by
  simp only [urlsplit, h1, h2, splitFragment_no h3, splitQuery_no h4]

/-! ### Lemmas about `splitparams` -/

theorem splitparams_no_semi {p : Str} (h : ';' ∉ p) : splitparams p = (p, []) := by
  cases h1 : splitLast '/' p with
  | none => simp [splitparams, h1, splitFirst_eq_none h]
  | some q =>
    obtain ⟨hq, _⟩ := splitLast_eq_some (a := q.1) (b := q.2) (l := p) (by rw [h1])
    have hsemi : ';' ∉ q.2 := by
      intro hm
      apply h
      rw [hq]
      exact List.mem_append.mpr (Or.inr (List.mem_cons_of_mem _ hm))
    simp [splitparams, h1, splitFirst_eq_none hsemi]

theorem splitparams_spec (p : Str) :
    (∃ t, p = (splitparams p).1 ++ t) ∧
    splitparams (splitparams p).1 = ((splitparams p).1, []) := by
  cases h1 : splitLast '/' p with
  | none =>
    cases h2 : splitFirst ';' p with
    | none =>
      have he : splitparams p = (p, []) := by simp [splitparams, h1, h2]
      rw [he]
      exact ⟨⟨[], (List.append_nil p).symm⟩,
        splitparams_no_semi (splitFirst_eq_none_iff.mp h2)⟩
    | some q =>
      have he : splitparams p = (q.1, q.2) := by simp [splitparams, h1, h2]
      obtain ⟨hl, hn⟩ := splitFirst_eq_some (a := q.1) (b := q.2) (l := p) (by rw [h2])
      rw [he]
      exact ⟨⟨';' :: q.2, hl⟩, splitparams_no_semi hn⟩
  | some q =>
    cases h2 : splitFirst ';' q.2 with
    | none =>
      have he : splitparams p = (p, []) := by simp [splitparams, h1, h2]
      rw [he]
      exact ⟨⟨[], (List.append_nil p).symm⟩, he⟩
    | some r =>
      have he : splitparams p = (q.1 ++ '/' :: r.1, r.2) := by
        simp [splitparams, h1, h2]
      obtain ⟨hql, hqn⟩ := splitLast_eq_some (a := q.1) (b := q.2) (l := p) (by rw [h1])
      obtain ⟨hrl, hrn⟩ := splitFirst_eq_some (a := r.1) (b := r.2) (l := q.2) (by rw [h2])
      rw [he]
      constructor
      · refine ⟨';' :: r.2, ?_⟩
        rw [hql]
        conv_lhs => rw [hrl]
        simp [List.append_assoc]
      · have hslash : '/' ∉ r.1 := by
          intro hm
          apply hqn
          rw [hrl]
          exact List.mem_append.mpr (Or.inl hm)
        simp [splitparams, splitLast_append q.1 hslash, splitFirst_eq_none hrn]

/-! ### The parse invariant and the rebuild-reparse roundtrip -/

theorem urlsplit_cleanOk {url : Str} {s : SplitResult}
    (h : urlsplit url = Except.ok s) : CleanOk s.scheme s.netloc s.path := by
  simp only [urlsplit] at h
  cases hn : splitNetlocStep (splitScheme url).2 with
  | error e => rw [hn] at h; exact Except.noConfusion h
  | ok nl =>
    rw [hn] at h
    have hs : s = { scheme := (splitScheme url).1, netloc := nl.1,
                    path := (splitQuery (splitFragment nl.2).1).1,
                    query := (splitQuery (splitFragment nl.2).1).2,
                    fragment := (splitFragment nl.2).2 } := (Except.ok.inj h).symm
    have e1 : s.scheme = (splitScheme url).1 := by rw [hs]
    have e2 : s.netloc = nl.1 := by rw [hs]
    have e3 : s.path = (splitQuery (splitFragment nl.2).1).1 := by rw [hs]
    rw [e1, e2, e3]
    obtain ⟨hpf, hpq, tp, htp⟩ := path_of_url2 nl.2
    have hnl := splitNetlocStep_ok hn
    refine ⟨?_, ?_, ?_, ?_, hpq, hpf, ?_, ?_⟩
    · by_cases hsc : (splitScheme url).1 = []
      · rw [hsc]; rfl
      · obtain ⟨pre, rest, _, _, hall, heq⟩ := splitScheme_spec_some hsc
        rw [heq]
        exact (scheme_all_lower hall).1
    · by_cases hsc : (splitScheme url).1 = []
      · rw [hsc]; rfl
      · obtain ⟨pre, rest, _, _, hall, heq⟩ := splitScheme_spec_some hsc
        rw [heq]
        exact (scheme_all_lower hall).2.1
    · rcases hnl with ⟨_, hnl2⟩ | ⟨_, hnl2, _⟩
      · rw [hnl2]; simp
      · rw [hnl2]; exact (splitNetloc_eq _).2.1
    · rcases hnl with ⟨_, hnl2⟩ | ⟨_, hnl2, hbr⟩
      · rw [hnl2]; simp
      · exact hbr
    · intro hne
      rcases hnl with ⟨_, hnl2⟩ | ⟨_, hnl2, _⟩
      · exact absurd (by rw [hnl2]) hne
      · rcases (splitNetloc_eq ((splitScheme url).2.drop 2)).2.2 with hr | ⟨y, t, hr, hy⟩
        · left
          have h0 : nl.2 = [] := by rw [hnl2]; exact hr
          have h1 : (splitQuery (splitFragment nl.2).1).1 ++ tp = [] := htp.symm.trans h0
          exact (List.append_eq_nil.mp h1).1
        · have hnl2' : nl.2 = y :: t := by rw [hnl2]; exact hr
          cases hpath : (splitQuery (splitFragment nl.2).1).1 with
          | nil => exact Or.inl rfl
          | cons p0 ps =>
            right
            rw [hpath, hnl2'] at htp
            injection htp with ey _
            rw [hpath] at hpq hpf
            rcases netlocDelim_cases hy with h1 | h1 | h1
            · exact ⟨ps, by rw [← ey, h1]⟩
            · exfalso
              apply hpq
              rw [← ey, h1]
              exact List.mem_cons_self _ _
            · exfalso
              apply hpf
              rw [← ey, h1]
              exact List.mem_cons_self _ _
    · intro hsch hnil hnsl pre rest hsf
      obtain ⟨hu1, hP⟩ := splitScheme_eq_nil hsch
      rcases hnl with ⟨_, hnl2⟩ | ⟨_, hnl2, _⟩
      · have hn2 : nl.2 = url := by rw [hnl2]; exact hu1
        have hurl : url = (splitQuery (splitFragment nl.2).1).1 ++ tp := by
          rw [← hn2]; exact htp
        have hsf' : splitFirst ':' url = some (pre, rest ++ tp) := by
          rw [hurl]; exact splitFirst_extend tp hsf
        exact hP pre (rest ++ tp) hsf'
      · rcases (splitNetloc_eq ((splitScheme url).2.drop 2)).2.2 with hr | ⟨y, t, hr, hy⟩
        · have h0 : nl.2 = [] := by rw [hnl2]; exact hr
          have h1 : (splitQuery (splitFragment nl.2).1).1 ++ tp = [] := htp.symm.trans h0
          rw [(List.append_eq_nil.mp h1).1] at hsf
          exact Option.noConfusion hsf
        · have hnl2' : nl.2 = y :: t := by rw [hnl2]; exact hr
          obtain ⟨hpl, _⟩ := splitFirst_eq_some hsf
          cases pre with
          | nil => exact Or.inl rfl
          | cons q qs =>
            right
            rw [hpl, hnl2'] at htp
            injection htp with ey _
            have hq : schemeChar q = false := by
              rcases netlocDelim_cases hy with h1 | h1 | h1 <;>
                (rw [← ey, h1]; decide)
            exact all_eq_false_of_mem (List.mem_cons_self q qs) hq

theorem cleanOk_initial {scheme netloc path path' : Str} (t : Str)
    (h : CleanOk scheme netloc path) (ht : path = path' ++ t) :
    CleanOk scheme netloc path' := by
  refine ⟨h.scheme_all, h.scheme_lower, h.netloc_nodelim, h.netloc_brackets,
    ?_, ?_, ?_, ?_⟩
  · intro hm
    exact h.path_noq (by rw [ht]; exact List.mem_append.mpr (Or.inl hm))
  · intro hm
    exact h.path_nof (by rw [ht]; exact List.mem_append.mpr (Or.inl hm))
  · intro hn
    rcases h.path_slash hn with he | ⟨u, hu⟩
    · left
      rw [ht] at he
      exact (List.append_eq_nil.mp he).1
    · cases path' with
      | nil => exact Or.inl rfl
      | cons x xs =>
        right
        rw [ht] at hu
        injection hu with ex _
        exact ⟨xs, by rw [ex]⟩
  · intro hsch hnl hnsl pre rest hsf
    cases hp' : path' with
    | nil =>
      rw [hp'] at hsf
      exact Option.noConfusion hsf
    | cons x xs =>
      cases hxs : xs with
      | nil =>
        rw [hp', hxs] at hsf
        by_cases hx : x = ':'
        · subst hx
          rw [splitFirst_cons_self] at hsf
          obtain ⟨h1, _⟩ := Prod.mk.injEq .. ▸ Option.some.inj hsf
          exact Or.inl h1.symm
        · rw [splitFirst_cons_ne hx] at hsf
          exact Option.noConfusion hsf
      | cons y ys =>
        have hnsl2 : ∀ u, path ≠ '/' :: '/' :: u := by
          intro u he
          rw [ht, hp', hxs] at he
          injection he with ex h'
          injection h' with ey _
          exact hnsl ys (by rw [hp', hxs, ex, ey])
        exact h.path_colon hsch hnl hnsl2 pre (rest ++ t)
          (by rw [ht]; exact splitFirst_extend t hsf)

theorem urlsplit_urlunsplit {scheme netloc path : Str} (h : CleanOk scheme netloc path) :
    urlsplit (urlunsplit scheme netloc path [] []) =
      Except.ok { scheme := scheme, netloc := netloc, path := path,
                  query := [], fragment := [] } := by
  by_cases hb : netloc ≠ [] ∨ (path ≠ [] ∧ path.take 2 = ['/', '/'])
  · have hslash : path = [] ∨ ∃ t, path = '/' :: t := by
      rcases hb with hnl | ⟨hpne, ht2⟩
      · exact h.path_slash hnl
      · obtain ⟨t, rfl⟩ := take_two_iff.mp ht2
        exact Or.inr ⟨'/' :: t, rfl⟩
    have hinner : ¬ (path ≠ [] ∧ path.take 1 ≠ ['/']) := by
      rcases hslash with rfl | ⟨t, rfl⟩
      · simp
      · simp
    have hun : urlunsplit scheme netloc path [] [] =
        (if scheme ≠ [] then scheme ++ ':' :: ('/' :: '/' :: (netloc ++ path))
         else '/' :: '/' :: (netloc ++ path)) := by
      simp only [urlunsplit]
      rw [if_pos hb, if_neg hinner]
      simp
    rw [hun]
    by_cases hs : scheme ≠ []
    · rw [if_pos hs]
      exact urlsplit_steps _ (splitScheme_of_scheme _ h.scheme_all h.scheme_lower hs)
        (parse_base_branch h.netloc_nodelim h.netloc_brackets hslash)
        h.path_nof h.path_noq
    · rw [if_neg hs]
      have hsc : scheme = [] := not_ne_iff.mp hs
      subst hsc
      exact urlsplit_steps _ (splitScheme_of_base_slash netloc path)
        (parse_base_branch h.netloc_nodelim h.netloc_brackets hslash)
        h.path_nof h.path_noq
  · push_neg at hb
    obtain ⟨hnl, hb2⟩ := hb
    have hnsl : ∀ t, path ≠ '/' :: '/' :: t := by
      intro t he
      exact hb2 (by rw [he]; simp) (take_two_iff.mpr ⟨t, he⟩)
    subst hnl
    have hcond : ¬ (([] : Str) ≠ [] ∨ (path ≠ [] ∧ path.take 2 = ['/', '/'])) := by
      rintro (hc | ⟨_, hc⟩)
      · exact hc rfl
      · obtain ⟨t, ht⟩ := take_two_iff.mp hc
        exact hnsl t ht
    have hun : urlunsplit scheme [] path [] [] =
        (if scheme ≠ [] then scheme ++ ':' :: path else path) := by
      simp only [urlunsplit]
      rw [if_neg hcond]
      simp
    rw [hun]
    by_cases hs : scheme ≠ []
    · rw [if_pos hs]
      exact urlsplit_steps _ (splitScheme_of_scheme _ h.scheme_all h.scheme_lower hs)
        (parse_base_nobranch hnsl) h.path_nof h.path_noq
    · rw [if_neg hs]
      have hsc : scheme = [] := not_ne_iff.mp hs
      subst hsc
      exact urlsplit_steps _ (splitScheme_of_colonfree (h.path_colon rfl rfl hnsl))
        (parse_base_nobranch hnsl) h.path_nof h.path_noq

/-! ### `urlparse` and `_clean_url_path` roundtrip -/

theorem urlparse_ok_cleanOk {url : Str} {r : ParseResult}
    (h : urlparse url = Except.ok r) :
    CleanOk r.scheme r.netloc r.path ∧
    (r.scheme ∈ usesParams ∧ ';' ∈ r.path → splitparams r.path = (r.path, [])) := by
  cases hsp : urlsplit url with
  | error e =>
    have hu : urlparse url = Except.error e := by simp [urlparse, hsp]
    rw [hu] at h
    exact Except.noConfusion h
  | ok s =>
    have hck := urlsplit_cleanOk hsp
    by_cases hg : s.scheme ∈ usesParams ∧ ';' ∈ s.path
    · have hu : urlparse url =
          Except.ok { scheme := s.scheme, netloc := s.netloc,
                      path := (splitparams s.path).1,
                      params := (splitparams s.path).2,
                      query := s.query, fragment := s.fragment } := by
        simp [urlparse, hsp, hg]
      rw [hu] at h
      have hr : r = { scheme := s.scheme, netloc := s.netloc,
                      path := (splitparams s.path).1,
                      params := (splitparams s.path).2,
                      query := s.query, fragment := s.fragment } :=
        (Except.ok.inj h).symm
      subst hr
      obtain ⟨⟨t, hts⟩, hidem⟩ := splitparams_spec s.path
      exact ⟨cleanOk_initial t hck hts, fun _ => hidem⟩
    · have hu : urlparse url =
          Except.ok { scheme := s.scheme, netloc := s.netloc, path := s.path,
                      params := [], query := s.query, fragment := s.fragment } := by
        simp [urlparse, hsp, hg]
      rw [hu] at h
      have hr : r = { scheme := s.scheme, netloc := s.netloc, path := s.path,
                      params := [], query := s.query, fragment := s.fragment } :=
        (Except.ok.inj h).symm
      subst hr
      exact ⟨hck, fun hg2 => absurd hg2 hg⟩

theorem clean_roundtrip {url : Str} {r : ParseResult}
    (h : urlparse url = Except.ok r) :
    urlparse (urlunsplit r.scheme r.netloc r.path [] []) =
      Except.ok { scheme := r.scheme, netloc := r.netloc, path := r.path,
                  params := [], query := [], fragment := [] } := by
  obtain ⟨hck, hstrip⟩ := urlparse_ok_cleanOk h
  have hre := urlsplit_urlunsplit hck
  simp only [urlparse, hre]
  by_cases hg : r.scheme ∈ usesParams ∧ ';' ∈ r.path
  · rw [if_pos hg, hstrip hg]
  · rw [if_neg hg]

theorem cleanUrlPathList_clean {url c : Str} (h : cleanUrlPathList url = Except.ok c) :
    cleanUrlPathList c = Except.ok c ∧
    ∃ r, urlparse url = Except.ok r ∧
      urlparse c = Except.ok { scheme := r.scheme, netloc := r.netloc,
                               path := r.path, params := [], query := [],
                               fragment := [] } := by
  simp only [cleanUrlPathList] at h
  cases hp : urlparse url with
  | error e => rw [hp] at h; exact Except.noConfusion h
  | ok r =>
    rw [hp] at h
    have hc : c = urlunsplit r.scheme r.netloc r.path [] [] := (Except.ok.inj h).symm
    subst hc
    have hrt := clean_roundtrip hp
    constructor
    · simp only [cleanUrlPathList, hrt]
    · exact ⟨r, rfl, hrt⟩

theorem clean_url_path_clean {url c : String} (h : clean_url_path url = Except.ok c) :
    clean_url_path c = Except.ok c ∧ cleanedFrom url c := by
  simp only [clean_url_path] at h
  cases hl : cleanUrlPathList url.data with
  | error e => rw [hl] at h; exact Except.noConfusion h
  | ok l =>
    rw [hl] at h
    have hc : c = String.mk l := (Except.ok.inj h).symm
    subst hc
    obtain ⟨hcl, r, hr1, hr2⟩ := cleanUrlPathList_clean hl
    have hdata : (String.mk l).data = l := rfl
    constructor
    · simp only [clean_url_path, hdata, hcl]
    · exact ⟨r, hr1, by rw [hdata]; exact hr2⟩

/-- Claim C3: `clean_urls` is idempotent on every `Urls` value — composing
it with itself through `Except` bind changes nothing — and on success each
of the four stored links keeps the scheme, host and path components of the
original URL while its params, query and fragment are stripped. -/
theorem clean_urls_idempotent_strips (u : Urls) :
    (Urls.clean_urls u).bind Urls.clean_urls = Urls.clean_urls u ∧
    ∀ u', Urls.clean_urls u = Except.ok u' →
      cleanedFrom u.spotify u'.spotify ∧ cleanedFrom u.anchor_fm u'.anchor_fm ∧
      cleanedFrom u.google_drive u'.google_drive ∧
      cleanedFrom u.mediafire u'.mediafire := by
  cases h1 : clean_url_path u.spotify with
  | error e =>
    have hu : Urls.clean_urls u = Except.error e := by simp [Urls.clean_urls, h1]
    rw [hu]
    exact ⟨rfl, fun u' hu' => Except.noConfusion hu'⟩
  | ok c1 =>
    obtain ⟨hc1, hf1⟩ := clean_url_path_clean h1
    cases h2 : clean_url_path u.anchor_fm with
    | error e =>
      have hu : Urls.clean_urls u = Except.error e := by
        simp [Urls.clean_urls, h1, h2]
      rw [hu]
      exact ⟨rfl, fun u' hu' => Except.noConfusion hu'⟩
    | ok c2 =>
      obtain ⟨hc2, hf2⟩ := clean_url_path_clean h2
      cases h3 : clean_url_path u.google_drive with
      | error e =>
        have hu : Urls.clean_urls u = Except.error e := by
          simp [Urls.clean_urls, h1, h2, h3]
        rw [hu]
        exact ⟨rfl, fun u' hu' => Except.noConfusion hu'⟩
      | ok c3 =>
        obtain ⟨hc3, hf3⟩ := clean_url_path_clean h3
        cases h4 : clean_url_path u.mediafire with
        | error e =>
          have hu : Urls.clean_urls u = Except.error e := by
            simp [Urls.clean_urls, h1, h2, h3, h4]
          rw [hu]
          exact ⟨rfl, fun u' hu' => Except.noConfusion hu'⟩
        | ok c4 =>
          obtain ⟨hc4, hf4⟩ := clean_url_path_clean h4
          have hu : Urls.clean_urls u =
              Except.ok { anchor_fm := c2, google_drive := c3,
                          mediafire := c4, spotify := c1 } := by
            simp [Urls.clean_urls, h1, h2, h3, h4]
          have hu0 : Urls.clean_urls
              ({ anchor_fm := c2, google_drive := c3,
                 mediafire := c4, spotify := c1 } : Urls) =
              Except.ok { anchor_fm := c2, google_drive := c3,
                          mediafire := c4, spotify := c1 } := by
            simp [Urls.clean_urls, hc1, hc2, hc3, hc4]
          rw [hu]
          constructor
          · exact hu0
          · intro u' hu'
            obtain rfl := Except.ok.inj hu'
            exact ⟨hf1, hf2, hf3, hf4⟩

/-- Witness for claim C3 at a concrete `Urls` value whose links carry a
tracking query, a fragment and a `;`-parameter. -/
theorem clean_urls_idempotent_strips_witness :
    (Urls.clean_urls exUrls).bind Urls.clean_urls = Urls.clean_urls exUrls ∧
    (cleanedFrom exUrls.spotify exUrlsClean.spotify ∧
     cleanedFrom exUrls.anchor_fm exUrlsClean.anchor_fm ∧
     cleanedFrom exUrls.google_drive exUrlsClean.google_drive ∧
     cleanedFrom exUrls.mediafire exUrlsClean.mediafire) :=
  ⟨(clean_urls_idempotent_strips exUrls).1,
   (clean_urls_idempotent_strips exUrls).2 exUrlsClean rfl⟩

/-! ### Claims about `retry_on_error` -/

/-- Claim C2: for every error kind and every action that raises a matching
error on every invocation, `retry_on_error` with `attempts = 3` invokes the
action exactly 3 times and then raises exactly the error observed on the
third attempt, not a generic timeout error. -/
theorem retry_always_failing_three_attempts {T : Type}
    (catches : PyErr → Bool) (action : Action T)
    (h : ∀ k, ∃ e, action k = Except.error e ∧ catches e = true) :
    ∃ e, action 2 = Except.error e ∧
      retry_on_error catches action 3 = (Except.error e, 3) := by
  obtain ⟨e0, h0, hc0⟩ := h 0
  obtain ⟨e1, h1, hc1⟩ := h 1
  obtain ⟨e2, h2, hc2⟩ := h 2
  refine ⟨e2, h2, ?_⟩
  show retryLoop catches action 3 0 baseExceptionErr = (Except.error e2, 3)
  simp [retryLoop, h0, hc0, h1, hc1, h2, hc2]

/-- Witness for claim C2 at a concrete always-failing action. -/
theorem retry_always_failing_three_attempts_witness :
    ∃ e, alwaysFailingAction 2 = Except.error e ∧
      retry_on_error kindEMatcher alwaysFailingAction 3 = (Except.error e, 3) :=
  retry_always_failing_three_attempts kindEMatcher alwaysFailingAction
    (fun _ => ⟨{ kind := "StaleElement", msg := "boom" }, rfl, by decide⟩)

/-- Claim C6: an action that raises matching errors on its first two
invocations and succeeds with `v` on the third returns `v` after exactly 3
invocations when retried with `attempts = 5`; and an error the kind
predicate does not match propagates immediately, after a single invocation,
without being retried. -/
theorem retry_transient_then_success {T : Type}
    (catches : PyErr → Bool) (action : Action T) (e0 e1 : PyErr) (v : T)
    (h0 : action 0 = Except.error e0) (hc0 : catches e0 = true)
    (h1 : action 1 = Except.error e1) (hc1 : catches e1 = true)
    (h2 : action 2 = Except.ok v) :
    retry_on_error catches action 5 = (Except.ok v, 3) ∧
    ∀ (action2 : Action T) (e : PyErr) (attempts : Int),
      action2 0 = Except.error e → catches e = false → 1 ≤ attempts →
      retry_on_error catches action2 attempts = (Except.error e, 1) := by
  constructor
  · show retryLoop catches action 5 0 baseExceptionErr = (Except.ok v, 3)
    simp [retryLoop, h0, hc0, h1, hc1, h2]
  · intro action2 e attempts ha hc hatt
    obtain ⟨m, hm⟩ : ∃ m, attempts.toNat = m + 1 := ⟨attempts.toNat - 1, by omega⟩
    simp [retry_on_error, hm, retryLoop, ha, hc]

/-- Witness for claim C6 at a concrete fails-twice-then-succeeds action. -/
theorem retry_transient_then_success_witness :
    retry_on_error kindEMatcher transientAction 5 = (Except.ok 42, 3) ∧
    retry_on_error kindEMatcher unrelatedFailingAction 5 =
      (Except.error { kind := "Fatal", msg := "other" }, 1) :=
  ⟨(retry_transient_then_success kindEMatcher transientAction _ _ 42
      rfl (by decide) rfl (by decide) rfl).1,
   (retry_transient_then_success kindEMatcher transientAction _ _ 42
      rfl (by decide) rfl (by decide) rfl).2
     unrelatedFailingAction _ 5 rfl (by decide) (by decide)⟩

/-- Claim C9: with non-positive `attempts` the loop never runs, the action
is never invoked, and the freshly constructed contentless `BaseException()`
is raised rather than any error produced by the action. -/
theorem retry_nonpositive_attempts {T : Type}
    (catches : PyErr → Bool) (action : Action T) (attempts : Int)
    (h : attempts ≤ 0) :
    retry_on_error catches action attempts = (Except.error baseExceptionErr, 0) := by
  have ht : attempts.toNat = 0 := by omega
  simp [retry_on_error, ht, retryLoop]

/-- Witness for claim C9 at `attempts = 0`. -/
theorem retry_nonpositive_attempts_witness :
    retry_on_error kindEMatcher alwaysFailingAction 0 =
      (Except.error baseExceptionErr, 0) :=
  retry_nonpositive_attempts kindEMatcher alwaysFailingAction 0 (by decide)

/-! ### Claims about `_fill_warnings` -/

/-- Claim C1 (counterexample to the stated per-element behaviour): because
the `else` is attached to the `for` loop, a warnings list holding exactly
the sentinel clicks the opt-out checkbox *and* the literal sentinel-text
checkbox; and a two-element list of ordinary warnings clicks only the last
one, never the first. -/
theorem fill_warnings_for_else_divergence :
    fillWarnings [sentinelWarning] =
      ([FormAction.clickCheckbox optOutWarning,
        FormAction.clickCheckbox sentinelWarning], none) ∧
    fillWarnings ["Graphic Depictions Of Violence", "Major Character Death"] =
      ([FormAction.clickCheckbox "Major Character Death"], none) := by
  constructor <;> rfl

/-- Claim C10: `_fill_warnings` on an empty warnings list does not return
silently: the loop-`else` clause still runs and reads the never-bound loop
variable, raising an unbound-local error with no checkbox clicked. -/
theorem fill_warnings_empty_raises_unbound :
    fillWarnings [] =
      ([], some { kind := "UnboundLocalError",
                  msg := "local variable referenced before assignment" }) := rfl

/-! ### Claims about `load_work_data` series parsing -/

/-- Claim C4: a page with no series-position element yields
`series_part = none` rather than an error; a page whose position label
reads `Part 3 of the Foo Bar` (with the series link text `Foo Bar`) yields
`SeriesPart "Foo Bar" 3`; and any label text not matching the
`Part <N> of the` pattern fails the hard assertion. -/
theorem load_series_part_spec :
    load_series_part none = Except.ok none ∧
    load_series_part (some ("Foo Bar", "Part 3 of the Foo Bar")) =
      Except.ok (some { series := "Foo Bar", part := 3 }) ∧
    ∀ anchorText labelText, rxPartNOfTheMatch labelText = none →
      load_series_part (some (anchorText, labelText)) =
        Except.error { kind := "AssertionError", msg := "No series part number" } := by
  refine ⟨rfl, rfl, ?_⟩
  intro a t h
  simp [load_series_part, h]

/-- Witness for claim C4 at a malformed series label. -/
theorem load_series_part_spec_witness :
    load_series_part (some ("Foo Bar", "a mangled label")) =
      Except.error { kind := "AssertionError", msg := "No series part number" } :=
  load_series_part_spec.2.2 "Foo Bar" "a mangled label" rfl

/-! ### Claims about `new_podfic` -/

/-- Claim C8: `new_podfic` requires `work.rating` to have exactly one
element: any other length makes the `[work_rating] = work.rating`
unpacking raise a `ValueError` right after navigating to the form and
before any rating (or anything else) is selected. -/
theorem new_podfic_rating_exactly_one (work : Work) (notes content : String)
    (h : work.rating.length ≠ 1) :
    ∃ e, new_podfic work notes content = ([FormAction.get "/works/new"], some e) ∧
      e.kind = "ValueError" ∧
      ∀ iv tv, FormAction.selectValueText iv tv ∉ (new_podfic work notes content).1 := by
  rcases hr : work.rating with _ | ⟨r, _ | ⟨r2, rest⟩⟩
  · refine ⟨{ kind := "ValueError",
              msg := "not enough values to unpack (expected 1, got 0)" },
      by simp [new_podfic, hr], rfl, ?_⟩
    intro iv tv hmem
    simp [new_podfic, hr] at hmem
  · exact absurd (by simp [hr]) h
  · refine ⟨{ kind := "ValueError", msg := "too many values to unpack (expected 1)" },
      by simp [new_podfic, hr], rfl, ?_⟩
    intro iv tv hmem
    simp [new_podfic, hr] at hmem

/-- Witness for claim C8 at a work whose rating list is empty. -/
theorem new_podfic_rating_exactly_one_witness :
    ∃ e, new_podfic exWorkNoRating "notes" "content" =
        ([FormAction.get "/works/new"], some e) ∧
      e.kind = "ValueError" ∧
      ∀ iv tv, FormAction.selectValueText iv tv ∉
        (new_podfic exWorkNoRating "notes" "content").1 :=
  new_podfic_rating_exactly_one exWorkNoRating "notes" "content" (by decide)

/-- Claim C7: whenever the submission reaches the title step (singleton
rating, nonempty warnings list), the form title field receives exactly the
string `[podfic] ` prepended to the scraped title, and no other text is
ever sent to the title field. -/
theorem new_podfic_title_prefixed (work : Work) (notes content : String)
    (r : String) (hr : work.rating = [r]) (hw : work.warning ≠ []) :
    FormAction.sendKeys "work_title" ("[podfic] " ++ work.title)
        ∈ (new_podfic work notes content).1 ∧
    ∀ s, FormAction.sendKeys "work_title" s ∈ (new_podfic work notes content).1 →
      s = "[podfic] " ++ work.title := by
  have hfw : (fillWarnings work.warning).2 = none := fillWarnings_snd_eq_none hw
  constructor
  · simp [new_podfic, hr, hfw]
  · intro s hs
    rcases hsp : work.series_part with _ | sp
    · simp [new_podfic, hr, hfw, hsp, List.mem_append,
        sendKeys_not_mem_fillWarnings] at hs
      exact hs
    · rcases eq_or_ne sp.part 1 with hp | hp <;>
        simp [new_podfic, hr, hfw, hsp, hp, List.mem_append,
          sendKeys_not_mem_fillWarnings] at hs <;>
        exact hs

/-- Witness for claim C7: the title `My Story` is typed into the form as
`[podfic] My Story`. -/
theorem new_podfic_title_prefixed_witness :
    FormAction.sendKeys "work_title" ("[podfic] " ++ "My Story")
        ∈ (new_podfic exWorkTitle "notes" "content").1 :=
  (new_podfic_title_prefixed exWorkTitle "notes" "content"
    "General Audiences" rfl (by decide)).1

/-- Claim C5: when the submission reaches the series step, a scraped series
position with part number 1 types the new series title `[podfic] ` + series
name (create-new-series) and never selects an existing series, while any
part number other than 1 selects the existing series with that visible
title and never types a new series title. -/
theorem new_podfic_series_tiebreak (work : Work) (notes content : String)
    (r : String) (hr : work.rating = [r]) (hw : work.warning ≠ [])
    (sp : SeriesPart) (hsp : work.series_part = some sp) :
    (sp.part = 1 →
      FormAction.sendKeys "work_series_attributes_title" ("[podfic] " ++ sp.series)
          ∈ (new_podfic work notes content).1 ∧
      ∀ tv, FormAction.selectValueText "work_series_attributes_id" tv
          ∉ (new_podfic work notes content).1) ∧
    (sp.part ≠ 1 →
      FormAction.selectValueText "work_series_attributes_id" ("[podfic] " ++ sp.series)
          ∈ (new_podfic work notes content).1 ∧
      ∀ tv, FormAction.sendKeys "work_series_attributes_title" tv
          ∉ (new_podfic work notes content).1) := by
  have hfw : (fillWarnings work.warning).2 = none := fillWarnings_snd_eq_none hw
  constructor
  · intro hp
    constructor
    · simp [new_podfic, hr, hfw, hsp, hp]
    · intro tv hmem
      simp [new_podfic, hr, hfw, hsp, hp, List.mem_append,
        selectValueText_not_mem_fillWarnings] at hmem
  · intro hp
    constructor
    · simp [new_podfic, hr, hfw, hsp, hp]
    · intro tv hmem
      simp [new_podfic, hr, hfw, hsp, hp, List.mem_append,
        sendKeys_not_mem_fillWarnings] at hmem

/-- Witness for claim C5: part 1 creates the series `[podfic] Arc`, part 2
selects the existing series `[podfic] Arc`. -/
theorem new_podfic_series_tiebreak_witness :
    FormAction.sendKeys "work_series_attributes_title" ("[podfic] " ++ "Arc")
        ∈ (new_podfic exWorkSeriesFirst "notes" "content").1 ∧
    FormAction.selectValueText "work_series_attributes_id" ("[podfic] " ++ "Arc")
        ∈ (new_podfic exWorkSeriesLater "notes" "content").1 :=
  ⟨((new_podfic_series_tiebreak exWorkSeriesFirst "notes" "content"
      "General Audiences" rfl (by decide) { series := "Arc", part := 1 } rfl).1 rfl).1,
   ((new_podfic_series_tiebreak exWorkSeriesLater "notes" "content"
      "General Audiences" rfl (by decide) { series := "Arc", part := 2 } rfl).2
     (by decide)).1⟩

end Podfickle
